import Mathlib

/-!
Verification development for the pipeline validation engine and its
frontend collaborators.

The repository consists of a React frontend (under `frontend/src`) and a
validation backend exposed at `POST /pipelines/parse`.  The backend's
implementation is not part of the available sources, only its contract
(spec sections 3, 4, 6, 7), its behavioural documentation
(`unnamed/part_000`) and logged request/response pairs
(`services/logger.js`); the definitions in the `PipelineValidation`
namespace are therefore modelled from the spec.  The frontend store and
API client are embedded directly from `components/store.js` and
`services/api.js`.
-/

namespace PipelineValidation

/-- Modelled from the spec: §3 NodeRef — identifier (unique within a
request) plus a declared type tag.  Opaque metadata (position, label) is
irrelevant to validation and omitted. -/
structure NodeRef where
  id : String
  nodeType : String
  deriving DecidableEq

/-- Modelled from the spec: §3 EdgeRef — identifier, source and target
node ids, optional source/target handle sub-identifiers. -/
structure EdgeRef where
  id : String
  source : String
  target : String
  sourceHandle : Option String
  targetHandle : Option String
  deriving DecidableEq

/-- Modelled from the spec: §4.2 — the directed graph induced by the
edges, ignoring handle sub-identifiers (multiple ports on one node
collapse to one vertex).  Successors of `u` in edge-list order. -/
def adjOf (edges : List EdgeRef) (u : String) : List String :=
  (edges.filter (fun e => e.source == u)).map (fun e => e.target)

/-- Modelled from the spec: §4.2 cycle detection — processing of the
successor list of the node currently on top of the traversal stack.
`stack` holds the in-progress (gray) nodes in root-to-current order,
`done` the finished (black) nodes; a node in neither is unvisited
(white).  Following an edge into an in-progress node signals a cycle; the
recorded cycle path is the stack portion from that node, closed with the
repeated starting id. -/
def dfsStep (visit : List String → String → Option (List String) × List String)
    (stack : List String) : List String → List String → Option (List String) × List String
  | [], done => (none, done)
  | v :: vs, done =>
    if v ∈ stack then
      (some (stack.dropWhile (fun w => w != v) ++ [v]), done)
    else if v ∈ done then
      dfsStep visit stack vs done
    else
      match visit done v with
      | (some c, d) => (some c, d)
      | (none, d) => dfsStep visit stack vs d

/-- Modelled from the spec: §4.2 cycle detection — visit of one unvisited
node: mark it in-progress by pushing it on the stack, process its
successors, then mark it done.  `fuel` bounds the recursion depth; the
caller supplies one more than the number of nodes, which suffices
because the stack of in-progress nodes never repeats a node. -/
def dfsVisit (adj : String → List String) : Nat → List String → List String → String →
    Option (List String) × List String
  | 0, _, done, _ => (none, done)
  | fuel + 1, stack, done, u =>
    match dfsStep (fun d v => dfsVisit adj fuel (stack ++ [u]) d v) (stack ++ [u]) (adj u) done with
    | (some c, d) => (some c, d)
    | (none, d) => (none, u :: d)

/-- Modelled from the spec: §4.2 cycle detection — the traversal visits
every unvisited node as a root. -/
def dfsRoots (adj : String → List String) (fuel : Nat) :
    List String → List String → Option (List String) × List String
  | [], done => (none, done)
  | r :: rs, done =>
    if r ∈ done then dfsRoots adj fuel rs done
    else
      match dfsVisit adj fuel [] done r with
      | (some c, d) => (some c, d)
      | (none, d) => dfsRoots adj fuel rs d

/-- Modelled from the spec: §4.2 — the three-color depth-first traversal
over the whole graph; returns the recorded cycle path when a back-edge
into an in-progress node is found, `none` otherwise. -/
def findCycle (nodes : List String) (edges : List EdgeRef) : Option (List String) :=
  (dfsRoots (adjOf edges) (nodes.length + 1) nodes []).1

/-- Modelled from the spec: §4.2 — `is_dag` is true exactly when the
traversal finds no back-edge. -/
def is_dag (nodes : List String) (edges : List EdgeRef) : Bool :=
  (findCycle nodes edges).isNone

/-- Modelled from the spec: §4.2 / logged responses — the DAG diagnostic
message list: empty when acyclic, otherwise one message recording the
cycle path. -/
def dagMessages (cycle : Option (List String)) : List String :=
  match cycle with
  | none => []
  | some c => ["Cycle detected: " ++ String.intercalate " -> " c]

/-- Modelled from the spec: §4.2 pipeline rules 1-4, evaluated in order,
each failing rule contributing one message.  The texts of rules 1 and 3
are fixed by the spec and the logged responses; the single-node and
cycle texts are not observable in the available sources. -/
def pipelineMessages (numNodes numEdges : Nat) (dag : Bool) : List String :=
  (if numNodes = 0 then ["Empty graph (no nodes)"] else []) ++
    (if numNodes = 1 then ["Invalid pipeline: a single node is not a pipeline"] else []) ++
      (if 2 ≤ numNodes ∧ numEdges = 0 then
        ["Invalid pipeline: nodes exist but no connections between them"] else []) ++
        (if dag then [] else ["Invalid pipeline: the graph contains a cycle"])

/-- Modelled from the spec: §4.2 — `is_pipeline` is true only if every
applicable rule passes, i.e. when no rule contributed a message. -/
def is_pipeline (nodes : List String) (edges : List EdgeRef) : Bool :=
  (pipelineMessages nodes.length edges.length (is_dag nodes edges)).isEmpty

/-- Modelled from the spec: §3 ValidationReport — node count, edge
count, the two booleans and the two ordered message lists. -/
structure ValidationReport where
  num_nodes : Nat
  num_edges : Nat
  is_dag : Bool
  is_pipeline : Bool
  dag_validation_messages : List String
  pipeline_validation_messages : List String
  deriving DecidableEq

/-- Modelled from the spec: §4.2 — the Structural Validator, computing
the full report over an already-built graph. -/
def validateGraph (nodes : List String) (edges : List EdgeRef) : ValidationReport :=
  let cycle := findCycle nodes edges
  { num_nodes := nodes.length
    num_edges := edges.length
    is_dag := cycle.isNone
    is_pipeline := (pipelineMessages nodes.length edges.length cycle.isNone).isEmpty
    dag_validation_messages := dagMessages cycle
    pipeline_validation_messages := pipelineMessages nodes.length edges.length cycle.isNone }

/-- Modelled from the spec: §7 — the input-integrity failure tier raised
by the Graph Model Builder. -/
inductive BuildError where
  | malformedInput (msg : String)
  deriving DecidableEq

/-- Modelled from the spec: §4.1 Graph Model Builder — accepts the raw
node and edge lists and returns the internal graph, failing with
`MalformedInputError` when node ids are not unique or an edge references
a non-existent source or target node id.  No structural validation
happens here. -/
def buildGraph (nodes : List NodeRef) (edges : List EdgeRef) :
    Except BuildError (List String × List EdgeRef) :=
  let ids := nodes.map NodeRef.id
  if ids.Nodup then
    if edges.all (fun e => decide (e.source ∈ ids) && decide (e.target ∈ ids)) then
      Except.ok (ids, edges)
    else Except.error (BuildError.malformedInput "Edge references a non-existent node id")
  else Except.error (BuildError.malformedInput "Duplicate node ids")

/-- Modelled from the spec: §2 control flow — raw graph → Graph Model
Builder → Structural Validator → report; builder failures are hard
errors and never produce a report. -/
def parsePipeline (nodes : List NodeRef) (edges : List EdgeRef) :
    Except BuildError ValidationReport :=
  match buildGraph nodes edges with
  | Except.error e => Except.error e
  | Except.ok (ids, es) => Except.ok (validateGraph ids es)

end PipelineValidation

namespace Frontend

/-- Embedded from `frontend/src/services/api.js`: a JavaScript argument
that either is an array (`Array.isArray` true) or is any other value. -/
inductive JsArg (α : Type) where
  | array (xs : List α)
  | nonArray
  deriving DecidableEq

/-- Embedded from `frontend/src/services/api.js`: `Array.isArray`. -/
def JsArg.isArray {α : Type} : JsArg α → Bool
  | JsArg.array _ => true
  | JsArg.nonArray => false

/-- Embedded from `frontend/src/services/api.js` lines 216-219: the JSON
body posted to the backend, `{ nodes, edges }`. -/
structure ParsePayload (ν ε : Type) where
  nodes : List ν
  edges : List ε
  deriving DecidableEq

/-- Embedded from `frontend/src/services/api.js` lines 210-222
(`ApiService.validatePipeline`): when either argument is not an array it
throws `Invalid pipeline data: nodes and edges must be arrays` before
any request is issued; otherwise it posts the two lists unchanged to
`/pipelines/parse` and returns the response body.  The transport is
abstracted as the pure function `post` (the surrounding `retryRequest`
re-issues the identical request and does not alter the payload). -/
def validatePipeline {ν ε ρ : Type} (post : String → ParsePayload ν ε → ρ)
    (nodes : JsArg ν) (edges : JsArg ε) : Except String ρ :=
  match nodes, edges with
  | JsArg.array ns, JsArg.array es => Except.ok (post "/pipelines/parse" ⟨ns, es⟩)
  | _, _ => Except.error "Invalid pipeline data: nodes and edges must be arrays"

/-- Embedded from `frontend/src/components/store.js`: a stored node; the
`data` field stands for the opaque remainder of the record (position,
type, fields), which `removeNode` passes through untouched. -/
structure StoreNode where
  id : String
  data : String
  deriving DecidableEq

/-- Embedded from `frontend/src/components/store.js`: a stored edge with
its source and target node ids and optional handles. -/
structure StoreEdge where
  id : String
  source : String
  target : String
  sourceHandle : Option String
  targetHandle : Option String
  deriving DecidableEq

/-- Embedded from `frontend/src/components/store.js`: the slice of the
zustand store state touched by `removeNode` and `getNodeID`.  The
`nodeIDs` object maps a node type to its per-type counter; an absent key
reads as `0` (the JS code initialises `undefined` entries to `0`). -/
structure StoreState where
  nodes : List StoreNode
  edges : List StoreEdge
  nodeIDs : String → Nat

/-- Embedded from `frontend/src/components/store.js` lines 102-114:
`removeNode` keeps the nodes whose id differs from `nodeId` and the
edges incident to neither endpoint equal to `nodeId`. -/
def removeNode (s : StoreState) (nodeId : String) : StoreState :=
  { s with
    nodes := s.nodes.filter (fun n => n.id != nodeId)
    edges := s.edges.filter (fun e => e.source != nodeId && e.target != nodeId) }

/-- Embedded from `frontend/src/components/store.js` lines 41-49:
`getNodeID` increments the per-type counter (initialising an unseen type
to `0` first) and returns the id `` `${type}-${newIDs[type]}` ``
together with the updated store. -/
def getNodeID (s : StoreState) (ty : String) : String × StoreState :=
  let n := s.nodeIDs ty + 1
  (ty ++ "-" ++ Nat.repr n,
    { s with nodeIDs := fun t => if t = ty then n else s.nodeIDs t })

/-- Helper describing a call sequence against the store: the list of ids
produced by successive `getNodeID` calls for the given types. -/
def runIds (s : StoreState) : List String → List String
  | [] => []
  | ty :: tys => (getNodeID s ty).1 :: runIds (getNodeID s ty).2 tys

end Frontend

namespace PipelineValidation

/-- One directed step in the graph described by an adjacency function. -/
def StepRel (adj : String → List String) (u v : String) : Prop := v ∈ adj u

/-- Reachability along directed steps. -/
abbrev Reach (adj : String → List String) : String → String → Prop :=
  Relation.ReflTransGen (StepRel adj)

/-- Existence of a directed cycle: some node reaches itself in at least
one step. -/
def HasCycle (adj : String → List String) : Prop :=
  ∃ u, Relation.TransGen (StepRel adj) u u

/-- A finished set closed under successors. -/
def DoneClosed (adj : String → List String) (d : List String) : Prop :=
  ∀ x ∈ d, ∀ y ∈ adj x, y ∈ d

theorem doneClosed_reach {adj : String → List String} {d : List String} {x y : String}
    (hc : DoneClosed adj d) (hx : x ∈ d) (h : Reach adj x y) : y ∈ d := by
  induction h with
  | refl => exact hx
  | tail _ hstep ih => exact hc _ ih _ hstep

theorem dropWhile_ne_eq_cons : ∀ {l : List String} {v : String}, v ∈ l →
    ∃ t, l.dropWhile (fun w => w != v) = v :: t
  | a :: l, v, h => by
    by_cases hav : a = v
    · subst hav
      exact ⟨l, by simp [List.dropWhile_cons]⟩
    · rcases List.mem_cons.mp h with h1 | h1
      · exact absurd h1.symm hav
      · obtain ⟨t, ht⟩ := dropWhile_ne_eq_cons h1
        exact ⟨t, by simpa [List.dropWhile_cons, bne_iff_ne, hav] using ht⟩

/-- Shape of every recorded cycle path: non-empty, first id = last id. -/
def CycShape (c : List String) : Prop := c ≠ [] ∧ c.head? = c.getLast?

theorem cycShape_detect {stack : List String} {v : String} (hv : v ∈ stack) :
    CycShape (stack.dropWhile (fun w => w != v) ++ [v]) := by
  obtain ⟨t, ht⟩ := dropWhile_ne_eq_cons hv
  rw [ht]
  exact ⟨by simp, by rw [List.getLast?_concat]; simp⟩

theorem dfsStep_some_shape
    {visit : List String → String → Option (List String) × List String}
    {stack : List String}
    (hvis : ∀ d v c d2, visit d v = (some c, d2) → CycShape c) :
    ∀ {vs done c d2}, dfsStep visit stack vs done = (some c, d2) → CycShape c := by
  intro vs
  induction vs with
  | nil => intro done c d2 h; simp [dfsStep] at h
  | cons w vs ih =>
    intro done c d2 h
    rw [dfsStep] at h
    split at h
    · rename_i hw
      injection h with h1 h2
      injection h1 with h1
      exact h1 ▸ cycShape_detect hw
    · split at h
      · exact ih h
      · split at h
        · rename_i c0 d0 heq
          injection h with h1 h2
          injection h1 with h1
          exact h1 ▸ hvis _ _ _ _ heq
        · exact ih h

theorem dfsVisit_some_shape {adj : String → List String} :
    ∀ {fuel stack done u c d2},
      dfsVisit adj fuel stack done u = (some c, d2) → CycShape c := by
  intro fuel
  induction fuel with
  | zero => intro stack done u c d2 h; simp [dfsVisit] at h
  | succ fuel ih =>
    intro stack done u c d2 h
    rw [dfsVisit] at h
    split at h
    · rename_i c0 d0 heq
      injection h with h1 h2
      injection h1 with h1
      exact h1 ▸ dfsStep_some_shape (fun d v c' d' hv => ih hv) heq
    · simp at h

theorem dfsRoots_some_shape {adj : String → List String} {fuel : Nat} :
    ∀ {roots done c d2},
      dfsRoots adj fuel roots done = (some c, d2) → CycShape c := by
  intro roots
  induction roots with
  | nil => intro done c d2 h; simp [dfsRoots] at h
  | cons r rs ih =>
    intro done c d2 h
    rw [dfsRoots] at h
    split at h
    · exact ih h
    · split at h
      · rename_i c0 d0 heq
        injection h with h1 h2
        injection h1 with h1
        exact h1 ▸ dfsVisit_some_shape heq
      · exact ih h

theorem findCycle_some_shape {nodes : List String} {edges : List EdgeRef} {c : List String}
    (h : findCycle nodes edges = some c) : CycShape c := by
  unfold findCycle at h
  rcases hr : dfsRoots (adjOf edges) (nodes.length + 1) nodes [] with ⟨o, d⟩
  rw [hr] at h
  obtain rfl : o = some c := h
  exact dfsRoots_some_shape hr

end PipelineValidation

namespace PipelineValidation

theorem reach_of_chain {adj : String → List String} :
    ∀ {l : List String} {w u : String}, List.Chain' (StepRel adj) l →
      l.head? = some w → l.getLast? = some u → Reach adj w u
  | [a], w, u, _, hh, hl => by
    injection hh with hh
    injection hl with hl
    exact hh ▸ hl ▸ Relation.ReflTransGen.refl
  | a :: b :: l, w, u, hc, hh, hl => by
    injection hh with hh
    rw [List.chain'_cons] at hc
    have hrest : Reach adj b u :=
      reach_of_chain hc.2 rfl (by simpa using hl)
    exact hh ▸ Relation.ReflTransGen.head hc.1 hrest

theorem cycle_of_detect {adj : String → List String} {stack : List String} {u v : String}
    (hchain : List.Chain' (StepRel adj) stack)
    (hlast : stack.getLast? = some u)
    (hstep : StepRel adj u v) (hv : v ∈ stack) :
    Relation.TransGen (StepRel adj) v v := by
  obtain ⟨t, ht⟩ := dropWhile_ne_eq_cons hv
  have hsuf : v :: t <:+ stack := ht ▸ List.dropWhile_suffix _
  have hchain2 : List.Chain' (StepRel adj) (v :: t) := hchain.suffix hsuf
  obtain ⟨pre, hpre⟩ := hsuf
  have hlast2 : (v :: t).getLast? = some u := by
    rw [← hpre, List.getLast?_append_of_ne_nil pre (by simp)] at hlast
    exact hlast
  exact Relation.TransGen.tail' (reach_of_chain hchain2 rfl hlast2) hstep

theorem dfsStep_some_cycle {adj : String → List String}
    {visit : List String → String → Option (List String) × List String}
    {stack : List String} {u : String}
    (hchain : List.Chain' (StepRel adj) stack)
    (hlast : stack.getLast? = some u)
    (hvis : ∀ d v c d2, StepRel adj u v → visit d v = (some c, d2) → HasCycle adj) :
    ∀ {vs done c d2}, (∀ v ∈ vs, StepRel adj u v) →
      dfsStep visit stack vs done = (some c, d2) → HasCycle adj := by
  intro vs
  induction vs with
  | nil => intro done c d2 _ h; simp [dfsStep] at h
  | cons w vs ih =>
    intro done c d2 hsteps h
    rw [dfsStep] at h
    split at h
    · rename_i hw
      exact ⟨w, cycle_of_detect hchain hlast (hsteps w (by simp)) hw⟩
    · split at h
      · exact ih (fun v hv => hsteps v (by simp [hv])) h
      · split at h
        · rename_i c0 d0 heq
          exact hvis _ _ _ _ (hsteps w (by simp)) heq
        · exact ih (fun v hv => hsteps v (by simp [hv])) h

theorem dfsVisit_some_cycle {adj : String → List String} :
    ∀ {fuel : Nat} {stack done : List String} {u : String} {c d2},
      List.Chain' (StepRel adj) (stack ++ [u]) →
      dfsVisit adj fuel stack done u = (some c, d2) → HasCycle adj := by
  intro fuel
  induction fuel with
  | zero => intro stack done u c d2 _ h; simp [dfsVisit] at h
  | succ fuel ih =>
    intro stack done u c d2 hchain h
    rw [dfsVisit] at h
    split at h
    · rename_i c0 d0 heq
      refine dfsStep_some_cycle hchain (List.getLast?_concat stack) ?_
        (fun v hv => hv) heq
      intro d v c' d' hstep hvis
      refine ih ?_ hvis
      rw [List.chain'_append]
      refine ⟨hchain, List.chain'_singleton v, ?_⟩
      intro x hx y hy
      rw [List.getLast?_concat] at hx
      injection hx with hx
      injection hy with hy
      exact hx ▸ hy ▸ hstep
    · simp at h

theorem dfsRoots_some_cycle {adj : String → List String} {fuel : Nat} :
    ∀ {roots done c d2},
      dfsRoots adj fuel roots done = (some c, d2) → HasCycle adj := by
  intro roots
  induction roots with
  | nil => intro done c d2 h; simp [dfsRoots] at h
  | cons r rs ih =>
    intro done c d2 h
    rw [dfsRoots] at h
    split at h
    · exact ih h
    · split at h
      · rename_i c0 d0 heq
        exact dfsVisit_some_cycle (List.chain'_singleton r) heq
      · exact ih h

theorem findCycle_some_hasCycle {nodes : List String} {edges : List EdgeRef} {c : List String}
    (h : findCycle nodes edges = some c) : HasCycle (adjOf edges) := by
  unfold findCycle at h
  rcases hr : dfsRoots (adjOf edges) (nodes.length + 1) nodes [] with ⟨o, d⟩
  rw [hr] at h
  obtain rfl : o = some c := h
  exact dfsRoots_some_cycle hr

end PipelineValidation

namespace PipelineValidation

/-- Postcondition of a cycle-free traversal fragment on the finished
set: it stays closed under successors, only grows, stays inside the node
universe `S`, and every added node avoids the ambient gray stack. -/
def DonePost (adj : String → List String) (S stack d d2 : List String) : Prop :=
  DoneClosed adj d2 ∧ d ⊆ d2 ∧ d2 ⊆ S ∧ ∀ x ∈ d2, x ∈ d ∨ x ∉ stack

theorem DonePost.trans {adj : String → List String} {S stack d d1 d2 : List String}
    (h1 : DonePost adj S stack d d1) (h2 : DonePost adj S stack d1 d2) :
    DonePost adj S stack d d2 :=
  ⟨h2.1, h1.2.1.trans h2.2.1, h2.2.2.1, fun x hx =>
    (h2.2.2.2 x hx).elim (fun hx1 => h1.2.2.2 x hx1) Or.inr⟩

theorem dfsStep_none_post {adj : String → List String} {S : List String}
    {visit : List String → String → Option (List String) × List String}
    {stack : List String}
    (hvis : ∀ d v d2, v ∈ S → v ∉ stack → v ∉ d →
        DoneClosed adj d → d ⊆ S → (∀ x ∈ d, x ∉ stack) →
        visit d v = (none, d2) → DonePost adj S stack d d2 ∧ v ∈ d2) :
    ∀ {vs done d2}, vs ⊆ S → DoneClosed adj done → done ⊆ S → (∀ x ∈ done, x ∉ stack) →
      dfsStep visit stack vs done = (none, d2) →
      DonePost adj S stack done d2 ∧ ∀ v ∈ vs, v ∈ d2 := by
  intro vs
  induction vs with
  | nil =>
    intro done d2 _ hcl hsub hdisj h
    rw [dfsStep] at h
    injection h with h1 h2
    subst h2
    exact ⟨⟨hcl, List.Subset.refl _, hsub, fun x hx => Or.inl hx⟩, by simp⟩
  | cons w vs ih =>
    intro done d2 hvs hcl hsub hdisj h
    rw [dfsStep] at h
    split at h
    · exact absurd h (by simp)
    · rename_i hwstack
      split at h
      · rename_i hwdone
        obtain ⟨hpost, hmem⟩ := ih (fun v hv => hvs (by simp [hv])) hcl hsub hdisj h
        refine ⟨hpost, fun v hv => ?_⟩
        rcases List.mem_cons.mp hv with rfl | hv
        · exact hpost.2.1 hwdone
        · exact hmem v hv
      · rename_i hwdone
        split at h
        · exact absurd h (by simp)
        · rename_i d0 heq
          obtain ⟨hpost1, hw⟩ :=
            hvis done w d0 (hvs (by simp)) hwstack hwdone hcl hsub hdisj heq
          obtain ⟨hpost2, hmem⟩ := ih (fun v hv => hvs (by simp [hv])) hpost1.1 hpost1.2.2.1
            (fun x hx => (hpost1.2.2.2 x hx).elim (fun h1 => hdisj x h1) id) h
          refine ⟨hpost1.trans hpost2, fun v hv => ?_⟩
          rcases List.mem_cons.mp hv with rfl | hv
          · exact hpost2.2.1 hw
          · exact hmem v hv

theorem dfsVisit_none_post {adj : String → List String} {S : List String}
    (hadj : ∀ u, ∀ v ∈ adj u, v ∈ S) :
    ∀ {fuel : Nat} {stack done : List String} {u : String} {d2},
      stack.Nodup → stack ⊆ S → S.length < fuel + stack.length →
      u ∈ S → u ∉ stack → u ∉ done →
      DoneClosed adj done → done ⊆ S → (∀ x ∈ done, x ∉ stack) →
      dfsVisit adj fuel stack done u = (none, d2) →
      DonePost adj S stack done d2 ∧ u ∈ d2 := by
  intro fuel
  induction fuel with
  | zero =>
    intro stack done u d2 hnd hssub hfuel _ _ _ _ _ _ _
    have : stack.length ≤ S.length := (hnd.subperm hssub).length_le
    omega
  | succ fuel ih =>
    intro stack done u d2 hnd hssub hfuel hu hustack hudone hcl hdsub hdisj h
    rw [dfsVisit] at h
    split at h
    · exact absurd h (by simp)
    · rename_i d0 heq
      injection h with h1 h2
      subst h2
      have hnd1 : (stack ++ [u]).Nodup := by
        simp [List.nodup_append, hnd, hustack]
      have hssub1 : (stack ++ [u]) ⊆ S := by
        intro x hx
        rcases List.mem_append.mp hx with hx | hx
        · exact hssub hx
        · simp at hx; exact hx ▸ hu
      have hfuel1 : S.length < fuel + (stack ++ [u]).length := by
        simp only [List.length_append, List.length_cons, List.length_nil]
        omega
      have hdisj1 : ∀ x ∈ done, x ∉ stack ++ [u] := by
        intro x hx hmem
        rcases List.mem_append.mp hmem with hm | hm
        · exact hdisj x hx hm
        · simp at hm; exact hudone (hm ▸ hx)
      obtain ⟨hpost, hchild⟩ := dfsStep_none_post (S := S)
        (fun d v d2 hvS hvstack hvd hcld hdS hdj hveq =>
          ih hnd1 hssub1 hfuel1 hvS hvstack hvd hcld hdS hdj hveq)
        (fun v hv => hadj u v hv) hcl hdsub hdisj1 heq
      refine ⟨⟨?_, ?_, ?_, ?_⟩, by simp⟩
      · intro x hx y hy
        rcases List.mem_cons.mp hx with rfl | hx
        · exact List.mem_cons_of_mem _ (hchild y hy)
        · exact List.mem_cons_of_mem _ (hpost.1 x hx y hy)
      · exact fun x hx => List.mem_cons_of_mem _ (hpost.2.1 hx)
      · intro x hx
        rcases List.mem_cons.mp hx with rfl | hx
        · exact hu
        · exact hpost.2.2.1 hx
      · intro x hx
        rcases List.mem_cons.mp hx with rfl | hx
        · exact Or.inr hustack
        · rcases hpost.2.2.2 x hx with h1 | h1
          · exact Or.inl h1
          · exact Or.inr fun hm => h1 (List.mem_append_left _ hm)

end PipelineValidation

namespace PipelineValidation

theorem dfsStep_none_reach_false {adj : String → List String} {S : List String}
    {visit : List String → String → Option (List String) × List String}
    {stack : List String}
    (hvis0 : ∀ d v d2, v ∈ S → v ∉ stack → v ∉ d →
        DoneClosed adj d → d ⊆ S → (∀ x ∈ d, x ∉ stack) →
        visit d v = (none, d2) → DonePost adj S stack d d2 ∧ v ∈ d2)
    (hvisB : ∀ d v, v ∈ S → v ∉ stack → v ∉ d →
        DoneClosed adj d → d ⊆ S → (∀ x ∈ d, x ∉ stack) →
        (∃ x, StepRel adj v x ∧ ∃ g ∈ stack ++ [v], Reach adj x g) →
        ∀ d2, visit d v = (none, d2) → False) :
    ∀ {vs done d2}, vs ⊆ S → DoneClosed adj done → done ⊆ S → (∀ x ∈ done, x ∉ stack) →
      (∃ v ∈ vs, ∃ g ∈ stack, Reach adj v g) →
      dfsStep visit stack vs done = (none, d2) → False := by
  intro vs
  induction vs with
  | nil => intro done d2 _ _ _ _ hwit _; simp at hwit
  | cons w vs ih =>
    intro done d2 hvs hcl hsub hdisj hwit h
    rw [dfsStep] at h
    split at h
    · exact absurd h (by simp)
    · rename_i hwstack
      split at h
      · rename_i hwdone
        obtain ⟨v, hvvs, g, hg, hreach⟩ := hwit
        rcases List.mem_cons.mp hvvs with rfl | hvvs
        · exact hdisj g (doneClosed_reach hcl hwdone hreach) hg
        · exact ih (fun x hx => hvs (by simp [hx])) hcl hsub hdisj ⟨v, hvvs, g, hg, hreach⟩ h
      · rename_i hwdone
        split at h
        · exact absurd h (by simp)
        · rename_i d0 heq
          obtain ⟨v, hvvs, g, hg, hreach⟩ := hwit
          rcases List.mem_cons.mp hvvs with rfl | hvvs
          · rcases Relation.ReflTransGen.cases_head hreach with rfl | ⟨x, hstep, hreach2⟩
            · exact hwstack hg
            · exact hvisB done v (hvs (by simp)) hwstack hwdone hcl hsub hdisj
                ⟨x, hstep, g, List.mem_append_left _ hg, hreach2⟩ d0 heq
          · obtain ⟨hpost1, -⟩ :=
              hvis0 done w d0 (hvs (by simp)) hwstack hwdone hcl hsub hdisj heq
            exact ih (fun x hx => hvs (by simp [hx])) hpost1.1 hpost1.2.2.1
              (fun x hx => (hpost1.2.2.2 x hx).elim (fun h1 => hdisj x h1) id)
              ⟨v, hvvs, g, hg, hreach⟩ h

theorem dfsVisit_none_reach_false {adj : String → List String} {S : List String}
    (hadj : ∀ u, ∀ v ∈ adj u, v ∈ S) :
    ∀ {fuel : Nat} {stack done : List String} {u : String} {d2},
      stack.Nodup → stack ⊆ S → S.length < fuel + stack.length →
      u ∈ S → u ∉ stack → u ∉ done →
      DoneClosed adj done → done ⊆ S → (∀ x ∈ done, x ∉ stack) →
      (∃ x, StepRel adj u x ∧ ∃ g ∈ stack ++ [u], Reach adj x g) →
      dfsVisit adj fuel stack done u = (none, d2) → False := by
  intro fuel
  induction fuel with
  | zero =>
    intro stack done u d2 hnd hssub hfuel _ _ _ _ _ _ _ _
    have : stack.length ≤ S.length := (hnd.subperm hssub).length_le
    omega
  | succ fuel ih =>
    intro stack done u d2 hnd hssub hfuel hu hustack hudone hcl hdsub hdisj hwit h
    rw [dfsVisit] at h
    split at h
    · exact absurd h (by simp)
    · rename_i d0 heq
      have hnd1 : (stack ++ [u]).Nodup := by
        simp [List.nodup_append, hnd, hustack]
      have hssub1 : (stack ++ [u]) ⊆ S := by
        intro x hx
        rcases List.mem_append.mp hx with hx | hx
        · exact hssub hx
        · simp at hx; exact hx ▸ hu
      have hfuel1 : S.length < fuel + (stack ++ [u]).length := by
        simp only [List.length_append, List.length_cons, List.length_nil]
        omega
      have hdisj1 : ∀ x ∈ done, x ∉ stack ++ [u] := by
        intro x hx hmem
        rcases List.mem_append.mp hmem with hm | hm
        · exact hdisj x hx hm
        · simp at hm; exact hudone (hm ▸ hx)
      obtain ⟨x, hstep, g, hg, hreach⟩ := hwit
      exact dfsStep_none_reach_false (S := S)
        (fun d v d2 hvS hvstack hvd hcld hdS hdj hveq =>
          dfsVisit_none_post hadj hnd1 hssub1 hfuel1 hvS hvstack hvd hcld hdS hdj hveq)
        (fun d v hvS hvstack hvd hcld hdS hdj hw d2 hveq =>
          ih hnd1 hssub1 hfuel1 hvS hvstack hvd hcld hdS hdj hw hveq)
        (fun v hv => hadj u v hv) hcl hdsub hdisj1 ⟨x, hstep, g, hg, hreach⟩ heq

theorem dfsStep_none_nocyc {adj : String → List String} {S : List String}
    {visit : List String → String → Option (List String) × List String}
    {stack : List String}
    (hvis0 : ∀ d v d2, v ∈ S → v ∉ stack → v ∉ d →
        DoneClosed adj d → d ⊆ S → (∀ x ∈ d, x ∉ stack) →
        visit d v = (none, d2) → DonePost adj S stack d d2 ∧ v ∈ d2)
    (hvisC : ∀ d v d2, v ∈ S → v ∉ stack → v ∉ d →
        DoneClosed adj d → d ⊆ S → (∀ x ∈ d, x ∉ stack) →
        visit d v = (none, d2) →
        ∀ x ∈ d2, x ∈ d ∨ ¬ Relation.TransGen (StepRel adj) x x) :
    ∀ {vs done d2}, vs ⊆ S → DoneClosed adj done → done ⊆ S → (∀ x ∈ done, x ∉ stack) →
      dfsStep visit stack vs done = (none, d2) →
      ∀ x ∈ d2, x ∈ done ∨ ¬ Relation.TransGen (StepRel adj) x x := by
  intro vs
  induction vs with
  | nil =>
    intro done d2 _ _ _ _ h
    rw [dfsStep] at h
    injection h with h1 h2
    subst h2
    exact fun x hx => Or.inl hx
  | cons w vs ih =>
    intro done d2 hvs hcl hsub hdisj h
    rw [dfsStep] at h
    split at h
    · exact absurd h (by simp)
    · rename_i hwstack
      split at h
      · exact ih (fun x hx => hvs (by simp [hx])) hcl hsub hdisj h
      · rename_i hwdone
        split at h
        · exact absurd h (by simp)
        · rename_i d0 heq
          obtain ⟨hpost1, -⟩ :=
            hvis0 done w d0 (hvs (by simp)) hwstack hwdone hcl hsub hdisj heq
          have hc1 := hvisC done w d0 (hvs (by simp)) hwstack hwdone hcl hsub hdisj heq
          have hrest := ih (fun x hx => hvs (by simp [hx])) hpost1.1 hpost1.2.2.1
            (fun x hx => (hpost1.2.2.2 x hx).elim (fun h1 => hdisj x h1) id) h
          intro x hx
          rcases hrest x hx with hx1 | hx1
          · exact hc1 x hx1
          · exact Or.inr hx1

theorem dfsVisit_none_nocyc {adj : String → List String} {S : List String}
    (hadj : ∀ u, ∀ v ∈ adj u, v ∈ S) :
    ∀ {fuel : Nat} {stack done : List String} {u : String} {d2},
      stack.Nodup → stack ⊆ S → S.length < fuel + stack.length →
      u ∈ S → u ∉ stack → u ∉ done →
      DoneClosed adj done → done ⊆ S → (∀ x ∈ done, x ∉ stack) →
      dfsVisit adj fuel stack done u = (none, d2) →
      ∀ x ∈ d2, x ∈ done ∨ ¬ Relation.TransGen (StepRel adj) x x := by
  intro fuel
  induction fuel with
  | zero =>
    intro stack done u d2 hnd hssub hfuel _ _ _ _ _ _ _
    have : stack.length ≤ S.length := (hnd.subperm hssub).length_le
    omega
  | succ fuel ih =>
    intro stack done u d2 hnd hssub hfuel hu hustack hudone hcl hdsub hdisj h
    have hvisit := h
    rw [dfsVisit] at h
    split at h
    · exact absurd h (by simp)
    · rename_i d0 heq
      injection h with h1 h2
      subst h2
      have hnd1 : (stack ++ [u]).Nodup := by
        simp [List.nodup_append, hnd, hustack]
      have hssub1 : (stack ++ [u]) ⊆ S := by
        intro x hx
        rcases List.mem_append.mp hx with hx | hx
        · exact hssub hx
        · simp at hx; exact hx ▸ hu
      have hfuel1 : S.length < fuel + (stack ++ [u]).length := by
        simp only [List.length_append, List.length_cons, List.length_nil]
        omega
      have hdisj1 : ∀ x ∈ done, x ∉ stack ++ [u] := by
        intro x hx hmem
        rcases List.mem_append.mp hmem with hm | hm
        · exact hdisj x hx hm
        · simp at hm; exact hudone (hm ▸ hx)
      have hrest := dfsStep_none_nocyc (S := S)
        (fun d v d2 hvS hvstack hvd hcld hdS hdj hveq =>
          dfsVisit_none_post hadj hnd1 hssub1 hfuel1 hvS hvstack hvd hcld hdS hdj hveq)
        (fun d v d2 hvS hvstack hvd hcld hdS hdj hveq =>
          ih hnd1 hssub1 hfuel1 hvS hvstack hvd hcld hdS hdj hveq)
        (fun v hv => hadj u v hv) hcl hdsub hdisj1 heq
      intro x hx
      rcases List.mem_cons.mp hx with rfl | hx
      · refine Or.inr fun hcyc => ?_
        obtain ⟨y, hstep, hreach⟩ := Relation.TransGen.head'_iff.mp hcyc
        exact dfsVisit_none_reach_false hadj hnd hssub hfuel hu hustack hudone
          hcl hdsub hdisj ⟨y, hstep, x, by simp, hreach⟩ hvisit
      · exact hrest x hx

end PipelineValidation

namespace PipelineValidation

theorem mem_adjOf {edges : List EdgeRef} {u v : String} :
    v ∈ adjOf edges u ↔ ∃ e, e ∈ edges ∧ e.source = u ∧ e.target = v := by
  simp only [adjOf, List.mem_map, List.mem_filter, beq_iff_eq]
  constructor
  · rintro ⟨e, ⟨he, hs⟩, ht⟩; exact ⟨e, he, hs, ht⟩
  · rintro ⟨e, he, hs, ht⟩; exact ⟨e, ⟨he, hs⟩, ht⟩

theorem dfsRoots_none_post {adj : String → List String} {S : List String}
    (hadj : ∀ u, ∀ v ∈ adj u, v ∈ S) {fuel : Nat} :
    ∀ {roots done d2}, roots ⊆ S → DoneClosed adj done → done ⊆ S → S.length < fuel →
      dfsRoots adj fuel roots done = (none, d2) →
      DoneClosed adj d2 ∧ done ⊆ d2 ∧ d2 ⊆ S ∧ (∀ r ∈ roots, r ∈ d2) ∧
        ∀ x ∈ d2, x ∈ done ∨ ¬ Relation.TransGen (StepRel adj) x x := by
  intro roots
  induction roots with
  | nil =>
    intro done d2 _ hcl hsub _ h
    rw [dfsRoots] at h
    injection h with h1 h2
    subst h2
    exact ⟨hcl, List.Subset.refl _, hsub, by simp, fun x hx => Or.inl hx⟩
  | cons r rs ih =>
    intro done d2 hroots hcl hsub hfuel h
    rw [dfsRoots] at h
    split at h
    · rename_i hrdone
      obtain ⟨hcl2, hsub2, hS2, hmem2, hnc2⟩ :=
        ih (fun x hx => hroots (by simp [hx])) hcl hsub hfuel h
      refine ⟨hcl2, hsub2, hS2, fun x hx => ?_, hnc2⟩
      rcases List.mem_cons.mp hx with rfl | hx
      · exact hsub2 hrdone
      · exact hmem2 x hx
    · rename_i hrdone
      split at h
      · exact absurd h (by simp)
      · rename_i d0 heq
        have hfuel0 : S.length < fuel + ([] : List String).length := by simpa using hfuel
        obtain ⟨⟨hcl0, hgrow0, hS0, -⟩, hr0⟩ :=
          dfsVisit_none_post hadj List.nodup_nil (by simp) hfuel0
            (hroots (by simp)) (by simp) hrdone hcl hsub (by simp) heq
        have hnc0 := dfsVisit_none_nocyc hadj List.nodup_nil (by simp) hfuel0
          (hroots (by simp)) (by simp) hrdone hcl hsub (by simp) heq
        obtain ⟨hcl2, hsub2, hS2, hmem2, hnc2⟩ :=
          ih (fun x hx => hroots (by simp [hx])) hcl0 hS0 hfuel h
        refine ⟨hcl2, hgrow0.trans hsub2, hS2, fun x hx => ?_, fun x hx => ?_⟩
        · rcases List.mem_cons.mp hx with rfl | hx
          · exact hsub2 hr0
          · exact hmem2 x hx
        · rcases hnc2 x hx with hx1 | hx1
          · exact hnc0 x hx1
          · exact Or.inr hx1

theorem findCycle_eq_none_no_cycle {nodes : List String} {edges : List EdgeRef}
    (hval : ∀ e ∈ edges, e.source ∈ nodes ∧ e.target ∈ nodes)
    (h : findCycle nodes edges = none) : ¬ HasCycle (adjOf edges) := by
  have hadj : ∀ u, ∀ v ∈ adjOf edges u, v ∈ nodes := by
    intro u v hv
    obtain ⟨e, he, -, ht⟩ := mem_adjOf.mp hv
    exact ht ▸ (hval e he).2
  unfold findCycle at h
  rcases hr : dfsRoots (adjOf edges) (nodes.length + 1) nodes [] with ⟨o, d⟩
  rw [hr] at h
  obtain rfl : o = none := h
  obtain ⟨-, -, -, hroots, hnc⟩ :=
    dfsRoots_none_post hadj (List.Subset.refl nodes) (by intro x hx; cases hx)
      (by simp) (by omega) hr
  rintro ⟨w, hcyc⟩
  obtain ⟨y, hstep, -⟩ := Relation.TransGen.head'_iff.mp hcyc
  obtain ⟨e, he, hs, -⟩ := mem_adjOf.mp hstep
  have hw : w ∈ nodes := hs ▸ (hval e he).1
  rcases hnc w (hroots w hw) with h1 | h1
  · cases h1
  · exact h1 hcyc

theorem is_dag_eq_false_iff {nodes : List String} {edges : List EdgeRef}
    (hval : ∀ e ∈ edges, e.source ∈ nodes ∧ e.target ∈ nodes) :
    is_dag nodes edges = false ↔ HasCycle (adjOf edges) := by
  constructor
  · intro h
    rcases hc : findCycle nodes edges with - | c
    · rw [is_dag, hc] at h; cases h
    · exact findCycle_some_hasCycle hc
  · intro h
    rcases hc : findCycle nodes edges with - | c
    · exact absurd h (findCycle_eq_none_no_cycle hval hc)
    · rw [is_dag, hc]; rfl

theorem hasCycle_perm {edges edges' : List EdgeRef} (hp : edges.Perm edges') :
    HasCycle (adjOf edges) ↔ HasCycle (adjOf edges') := by
  have hrel : StepRel (adjOf edges) = StepRel (adjOf edges') := by
    funext u v
    refine propext ?_
    rw [StepRel, StepRel, mem_adjOf, mem_adjOf]
    constructor
    · rintro ⟨e, he, hprop⟩; exact ⟨e, hp.mem_iff.mp he, hprop⟩
    · rintro ⟨e, he, hprop⟩; exact ⟨e, hp.mem_iff.mpr he, hprop⟩
  rw [HasCycle, HasCycle, hrel]

end PipelineValidation

namespace PipelineValidation

theorem adjOf_nil (u : String) : adjOf [] u = [] := rfl

theorem dfsVisit_no_edges {fuel : Nat} {stack done : List String} {u : String}
    (h : 1 ≤ fuel) : dfsVisit (adjOf []) fuel stack done u = (none, u :: done) := by
  cases fuel with
  | zero => omega
  | succ fuel => rfl

theorem dfsRoots_no_edges {fuel : Nat} (h : 1 ≤ fuel) :
    ∀ (roots done : List String), ∃ d2, dfsRoots (adjOf []) fuel roots done = (none, d2) := by
  intro roots
  induction roots with
  | nil => intro done; exact ⟨done, rfl⟩
  | cons r rs ih =>
    intro done
    rw [dfsRoots]
    by_cases hr : r ∈ done
    · rw [if_pos hr]; exact ih done
    · rw [if_neg hr, dfsVisit_no_edges h]
      exact ih (r :: done)

theorem findCycle_no_edges (nodes : List String) : findCycle nodes [] = none := by
  obtain ⟨d2, hd⟩ := @dfsRoots_no_edges (nodes.length + 1) (by omega) nodes []
  rw [findCycle, hd]

end PipelineValidation

namespace Frontend

theorem digitChar_inj_lt : ∀ a, a < 10 → ∀ b, b < 10 →
    Nat.digitChar a = Nat.digitChar b → a = b := by decide

theorem toDigitsCore_eq_digits : ∀ (fuel n : Nat) (acc : List Char), 0 < n → n ≤ fuel →
    Nat.toDigitsCore 10 fuel n acc = ((Nat.digits 10 n).map Nat.digitChar).reverse ++ acc := by
  intro fuel
  induction fuel with
  | zero => intro n acc h1 h2; omega
  | succ fuel ih =>
    intro n acc h1 h2
    simp only [Nat.toDigitsCore]
    by_cases hdiv : n / 10 = 0
    · rw [if_pos hdiv, Nat.digits_def' (by norm_num) h1, hdiv]
      simp
    · rw [if_neg hdiv]
      have hlt : n / 10 < n := Nat.div_lt_self h1 (by norm_num)
      rw [ih (n / 10) _ (Nat.pos_of_ne_zero hdiv) (by omega),
        Nat.digits_def' (by norm_num) h1]
      simp

theorem map_digitChar_inj : ∀ {l1 l2 : List Nat}, (∀ x ∈ l1, x < 10) → (∀ x ∈ l2, x < 10) →
    l1.map Nat.digitChar = l2.map Nat.digitChar → l1 = l2
  | [], [], _, _, _ => rfl
  | [], _ :: _, _, _, h => by cases h
  | _ :: _, [], _, _, h => by cases h
  | a :: l1, b :: l2, h1, h2, h => by
    injection h with hh ht
    have hab := digitChar_inj_lt a (h1 a (by simp)) b (h2 b (by simp)) hh
    rw [hab, map_digitChar_inj (fun x hx => h1 x (by simp [hx]))
      (fun x hx => h2 x (by simp [hx])) ht]

theorem toDigits_eq_digits (n : Nat) (h : 0 < n) :
    Nat.toDigits 10 n = ((Nat.digits 10 n).map Nat.digitChar).reverse := by
  rw [Nat.toDigits, toDigitsCore_eq_digits (n + 1) n [] h (by omega), List.append_nil]

theorem toDigits_pos_ne_zero_str (m : Nat) (hm : 0 < m) : Nat.toDigits 10 m ≠ ['0'] := by
  intro hcon
  rw [toDigits_eq_digits m hm] at hcon
  have hmap : (Nat.digits 10 m).map Nat.digitChar = ['0'] := by
    have h2 := List.reverse_eq_iff.mp hcon
    simpa using h2
  rcases hd : Nat.digits 10 m with - | ⟨d, tl⟩
  · exact Nat.digits_ne_nil_iff_ne_zero.mpr (by omega) hd
  · rw [hd] at hmap
    rcases tl with - | ⟨d2, tl⟩
    · simp only [List.map_cons, List.map_nil] at hmap
      injection hmap with hc htl
      have hd0 : d = 0 := digitChar_inj_lt d
        (Nat.digits_lt_base (by norm_num) (hd ▸ List.mem_cons_self d [])) 0
        (by norm_num) hc
      have hofd := Nat.ofDigits_digits 10 m
      rw [hd, hd0] at hofd
      simp [Nat.ofDigits_cons, Nat.ofDigits_nil] at hofd
      omega
    · simp at hmap

theorem natRepr_inj {n m : Nat} (h : Nat.repr n = Nat.repr m) : n = m := by
  have hdata : Nat.toDigits 10 n = Nat.toDigits 10 m := congrArg String.data h
  rcases Nat.eq_zero_or_pos n with rfl | hn
  · rcases Nat.eq_zero_or_pos m with rfl | hm
    · rfl
    · exact absurd hdata.symm (toDigits_pos_ne_zero_str m hm)
  · rcases Nat.eq_zero_or_pos m with rfl | hm
    · exact absurd hdata (toDigits_pos_ne_zero_str n hn)
    · rw [toDigits_eq_digits n hn, toDigits_eq_digits m hm] at hdata
      have hmap := List.reverse_injective hdata
      have hdig := map_digitChar_inj
        (fun x hx => Nat.digits_lt_base (by norm_num) hx)
        (fun x hx => Nat.digits_lt_base (by norm_num) hx) hmap
      have hh := congrArg (Nat.ofDigits 10) hdig
      rwa [Nat.ofDigits_digits, Nat.ofDigits_digits] at hh

end Frontend

namespace Frontend

theorem reprArg_congr {t : String} {a b : Nat} (h : a = b) :
    t ++ "-" ++ Nat.repr a = t ++ "-" ++ Nat.repr b := by rw [h]

theorem runIds_getElem : ∀ (tys : List String) (s : StoreState) (i : Nat) (h : i < tys.length),
    (runIds s tys)[i]? =
      some (tys.get ⟨i, h⟩ ++ "-" ++
        Nat.repr (s.nodeIDs (tys.get ⟨i, h⟩) + (tys.take (i + 1)).count (tys.get ⟨i, h⟩)))
  | ty :: tys, s, 0, h => by
    simp only [runIds, List.getElem?_cons_zero, List.get, List.take_succ_cons, List.take_zero,
      List.count_cons, List.count_nil, getNodeID]
    simp
  | ty :: tys, s, i + 1, h => by
    have h' : i < tys.length := by simpa using h
    have hrec := runIds_getElem tys (getNodeID s ty).2 i h'
    have hget : (ty :: tys).get ⟨i + 1, h⟩ = tys.get ⟨i, h'⟩ := rfl
    simp only [runIds, List.getElem?_cons_succ]
    rw [hrec, hget, List.take_succ_cons, List.count_cons]
    simp only [getNodeID]
    by_cases hty : tys.get ⟨i, h'⟩ = ty
    · simp only [hty, if_pos rfl, beq_self_eq_true, if_true]
      exact congrArg some (reprArg_congr (by omega))
    · have hb : (ty == tys.get ⟨i, h'⟩) = false :=
        beq_eq_false_iff_ne.mpr fun hcon => hty hcon.symm
      simp only [if_neg hty, hb, Bool.false_eq_true, if_false]
      exact congrArg some (reprArg_congr (by omega))

theorem count_take_lt {tys : List String} {i j : Nat} (hij : i < j) (hj : j < tys.length) :
    (tys.take (i + 1)).count (tys.get ⟨j, hj⟩) < (tys.take (j + 1)).count (tys.get ⟨j, hj⟩) := by
  have h1 : (tys.take (j + 1)).count (tys.get ⟨j, hj⟩) =
      (tys.take j).count (tys.get ⟨j, hj⟩) + 1 := by
    rw [List.take_succ, List.getElem?_eq_getElem hj, List.count_append]
    simp [List.count_singleton]
  have hsub : List.Sublist (tys.take (i + 1)) (tys.take j) := by
    have heq2 : tys.take (i + 1) = (tys.take j).take (i + 1) := by
      rw [List.take_take, Nat.min_eq_left (by omega : i + 1 ≤ j)]
    rw [heq2]
    exact List.take_sublist _ _
  have h2 := hsub.count_le (tys.get ⟨j, hj⟩)
  omega

theorem runIds_distinct {s : StoreState} {tys : List String} {i j : Nat}
    (hij : i < j) (hj : j < tys.length) (heq : tys[i]? = tys[j]?) :
    (runIds s tys)[i]? ≠ (runIds s tys)[j]? := by
  have hi : i < tys.length := by omega
  have heqg : tys.get ⟨i, hi⟩ = tys.get ⟨j, hj⟩ := by
    rw [List.getElem?_eq_getElem hi, List.getElem?_eq_getElem hj] at heq
    injection heq
  rw [runIds_getElem tys s i hi, runIds_getElem tys s j hj]
  intro hcon
  injection hcon with hcon
  rw [heqg] at hcon
  have hdion := congrArg String.data hcon
  simp only [String.data_append] at hdion
  have h2 := List.append_cancel_left hdion
  have h4 := natRepr_inj (String.ext h2)
  have h5 := count_take_lt hij hj
  omega

end Frontend

namespace PipelineValidation

/-- Claim C1: for every input graph, `is_dag` is false exactly when the
three-color traversal finds a back-edge into an in-progress node (i.e.
`findCycle` records a cycle path), and every recorded cycle path is a
non-empty sequence of node ids whose first and last elements are the
same node id. -/
theorem C1_is_dag_false_iff_back_edge (nodes : List String) (edges : List EdgeRef) :
    (is_dag nodes edges = false ↔ (findCycle nodes edges).isSome) ∧
      ∀ c, findCycle nodes edges = some c → c ≠ [] ∧ c.head? = c.getLast? := by
  constructor
  · unfold is_dag
    cases findCycle nodes edges <;> simp
  · intro c hc
    exact findCycle_some_shape hc

/-- Witness for C1 at the single-node self-loop input. -/
theorem C1_witness :
    (["a", "a"] : List String) ≠ [] ∧
      (["a", "a"] : List String).head? = (["a", "a"] : List String).getLast? :=
  (C1_is_dag_false_iff_back_edge ["a"] [⟨"e", "a", "a", none, none⟩]).2
    ["a", "a"] (by decide)

/-- Claim C2: an edge referencing a source or target node id absent from
the node list makes the Graph Model Builder fail with
MalformedInputError; no ValidationReport is produced, so the error is
never folded into any report message list. -/
theorem C2_malformed_edge_rejected (nodes : List NodeRef) (edges : List EdgeRef)
    (h : ∃ e ∈ edges, e.source ∉ nodes.map NodeRef.id ∨ e.target ∉ nodes.map NodeRef.id) :
    ∃ msg, parsePipeline nodes edges = Except.error (BuildError.malformedInput msg) := by
  simp only [parsePipeline, buildGraph]
  by_cases hnd : (nodes.map NodeRef.id).Nodup
  · rw [if_pos hnd]
    obtain ⟨e, he, hbad⟩ := h
    have hall : edges.all (fun e => decide (e.source ∈ nodes.map NodeRef.id) &&
        decide (e.target ∈ nodes.map NodeRef.id)) = false := by
      cases hallc : edges.all (fun e => decide (e.source ∈ nodes.map NodeRef.id) &&
          decide (e.target ∈ nodes.map NodeRef.id)) with
      | false => rfl
      | true =>
        exfalso
        have hmem := List.all_eq_true.mp hallc e he
        rcases hbad with hbad | hbad <;> simp [hbad] at hmem
    rw [hall]
    exact ⟨"Edge references a non-existent node id", rfl⟩
  · rw [if_neg hnd]
    exact ⟨"Duplicate node ids", rfl⟩

/-- Witness for C2: one node `a`, one edge pointing at the missing node
`b`. -/
theorem C2_witness :
    ∃ msg, parsePipeline [⟨"a", "customInput"⟩] [⟨"e", "a", "b", none, none⟩] =
      Except.error (BuildError.malformedInput msg) :=
  C2_malformed_edge_rejected [⟨"a", "customInput"⟩] [⟨"e", "a", "b", none, none⟩] (by decide)

/-- Claim C3: the empty input (zero nodes, zero edges) produces a report
with is_dag true, is_pipeline false, an empty DAG message list, and the
pipeline message list containing exactly "Empty graph (no nodes)". -/
theorem C3_empty_graph_report :
    parsePipeline [] [] = Except.ok
      { num_nodes := 0, num_edges := 0, is_dag := true, is_pipeline := false,
        dag_validation_messages := [],
        pipeline_validation_messages := ["Empty graph (no nodes)"] } := rfl

/-- Claim C4: two or more nodes and zero edges yield is_dag true,
is_pipeline false, and the no-connections pipeline message. -/
theorem C4_nodes_without_edges (ids : List String) (h : 2 ≤ ids.length) :
    (validateGraph ids []).is_dag = true ∧ (validateGraph ids []).is_pipeline = false ∧
      "Invalid pipeline: nodes exist but no connections between them" ∈
        (validateGraph ids []).pipeline_validation_messages := by
  have hfc := findCycle_no_edges ids
  have hmsg : pipelineMessages ids.length 0 true =
      ["Invalid pipeline: nodes exist but no connections between them"] := by
    rw [pipelineMessages, if_neg (by omega), if_neg (by omega), if_pos ⟨h, rfl⟩, if_pos rfl]
    rfl
  refine ⟨?_, ?_, ?_⟩ <;> simp [validateGraph, hfc, hmsg]

/-- Witness for C4 at a two-node, zero-edge input. -/
theorem C4_witness :
    (validateGraph ["a", "b"] []).is_dag = true ∧
      (validateGraph ["a", "b"] []).is_pipeline = false ∧
      "Invalid pipeline: nodes exist but no connections between them" ∈
        (validateGraph ["a", "b"] []).pipeline_validation_messages :=
  C4_nodes_without_edges ["a", "b"] (by decide)

/-- Claim C5: exactly two distinct nodes joined by one edge A→B give a
report with is_dag true, is_pipeline true, and both message lists empty,
in either node-list order. -/
theorem C5_two_connected_nodes (A B eid : String) (sh th : Option String) (hAB : A ≠ B) :
    validateGraph [A, B] [⟨eid, A, B, sh, th⟩] =
      { num_nodes := 2, num_edges := 1, is_dag := true, is_pipeline := true,
        dag_validation_messages := [], pipeline_validation_messages := [] } ∧
    validateGraph [B, A] [⟨eid, A, B, sh, th⟩] =
      { num_nodes := 2, num_edges := 1, is_dag := true, is_pipeline := true,
        dag_validation_messages := [], pipeline_validation_messages := [] } := by
  have hBA : B ≠ A := Ne.symm hAB
  constructor <;>
    simp [validateGraph, findCycle, dfsRoots, dfsVisit, dfsStep, adjOf, dagMessages,
      pipelineMessages, hAB, hBA, List.dropWhile]

/-- Witness for C5 at nodes a, b with the edge a→b. -/
theorem C5_witness :
    validateGraph ["a", "b"] [⟨"e", "a", "b", none, none⟩] =
      { num_nodes := 2, num_edges := 1, is_dag := true, is_pipeline := true,
        dag_validation_messages := [], pipeline_validation_messages := [] } ∧
    validateGraph ["b", "a"] [⟨"e", "a", "b", none, none⟩] =
      { num_nodes := 2, num_edges := 1, is_dag := true, is_pipeline := true,
        dag_validation_messages := [], pipeline_validation_messages := [] } :=
  C5_two_connected_nodes "a" "b" "e" none none (by decide)

end PipelineValidation

namespace PipelineValidation

/-- Counterexample to claim C6 as stated: this input contains the
self-loop b→b, yet the recorded cycle path is [a, b, a] (the a→b→a
cycle found first), not [b, b]. -/
theorem C6_counterexample :
    (⟨"e3", "b", "b", none, none⟩ : EdgeRef) ∈
        ([⟨"e1", "a", "b", none, none⟩, ⟨"e2", "b", "a", none, none⟩,
          ⟨"e3", "b", "b", none, none⟩] : List EdgeRef) ∧
      findCycle ["a", "b"]
          [⟨"e1", "a", "b", none, none⟩, ⟨"e2", "b", "a", none, none⟩,
            ⟨"e3", "b", "b", none, none⟩] = some ["a", "b", "a"] ∧
      (["a", "b", "a"] : List String) ≠ ["b", "b"] ∧
      is_dag ["a", "b"]
          [⟨"e1", "a", "b", none, none⟩, ⟨"e2", "b", "a", none, none⟩,
            ⟨"e3", "b", "b", none, none⟩] = false := by decide

/-- Claim C6 amended: every well-formed input containing a self-loop
edge A→A has is_dag false, and when the self-loop is the cycle the
traversal reports — in particular for the single-node input consisting
of A and the edge A→A — the recorded cycle path is exactly [A, A]. -/
theorem C6_self_loop (nodes : List String) (edges : List EdgeRef)
    (eid A : String) (sh th : Option String)
    (hval : ∀ e ∈ edges, e.source ∈ nodes ∧ e.target ∈ nodes)
    (hmem : (⟨eid, A, A, sh, th⟩ : EdgeRef) ∈ edges) :
    is_dag nodes edges = false ∧
      findCycle [A] [⟨eid, A, A, sh, th⟩] = some [A, A] := by
  constructor
  · rw [is_dag_eq_false_iff hval]
    refine ⟨A, Relation.TransGen.single ?_⟩
    rw [StepRel, mem_adjOf]
    exact ⟨⟨eid, A, A, sh, th⟩, hmem, rfl, rfl⟩
  · simp [findCycle, dfsRoots, dfsVisit, dfsStep, adjOf, List.dropWhile]

/-- Witness for the amended C6 at the single-node self-loop input. -/
theorem C6_witness :
    is_dag ["a"] [⟨"e", "a", "a", none, none⟩] = false ∧
      findCycle ["a"] [⟨"e", "a", "a", none, none⟩] = some ["a", "a"] :=
  C6_self_loop ["a"] [⟨"e", "a", "a", none, none⟩] "e" "a" none none (by decide) (by decide)

/-- Claim C7: permuting the node list and the edge list of a well-formed
input (every edge endpoint names an existing node, per the §3 input
invariant) changes neither the is_dag boolean nor the is_pipeline
boolean. -/
theorem C7_order_independence (nodes nodes' : List String) (edges edges' : List EdgeRef)
    (hval : ∀ e ∈ edges, e.source ∈ nodes ∧ e.target ∈ nodes)
    (hn : nodes.Perm nodes') (he : edges.Perm edges') :
    is_dag nodes' edges' = is_dag nodes edges ∧
      is_pipeline nodes' edges' = is_pipeline nodes edges := by
  have hval' : ∀ e ∈ edges', e.source ∈ nodes' ∧ e.target ∈ nodes' := by
    intro e hee
    have h2 := hval e (he.mem_iff.mpr hee)
    exact ⟨hn.mem_iff.mp h2.1, hn.mem_iff.mp h2.2⟩
  have hdag : is_dag nodes' edges' = is_dag nodes edges := by
    cases hd : is_dag nodes edges with
    | false =>
      have h2 := (is_dag_eq_false_iff hval).mp hd
      exact (is_dag_eq_false_iff hval').mpr ((hasCycle_perm he).mp h2)
    | true =>
      cases hd2 : is_dag nodes' edges' with
      | true => rfl
      | false =>
        have h2 := (is_dag_eq_false_iff hval').mp hd2
        have h3 := (is_dag_eq_false_iff hval).mpr ((hasCycle_perm he).mpr h2)
        rw [hd] at h3
        cases h3
  refine ⟨hdag, ?_⟩
  rw [is_pipeline, is_pipeline, hdag, ← hn.length_eq, ← he.length_eq]

/-- Witness for C7: swapping the two nodes of a connected pair. -/
theorem C7_witness :
    is_dag ["b", "a"] [⟨"e", "a", "b", none, none⟩] =
        is_dag ["a", "b"] [⟨"e", "a", "b", none, none⟩] ∧
      is_pipeline ["b", "a"] [⟨"e", "a", "b", none, none⟩] =
        is_pipeline ["a", "b"] [⟨"e", "a", "b", none, none⟩] :=
  C7_order_independence ["a", "b"] ["b", "a"] [⟨"e", "a", "b", none, none⟩]
    [⟨"e", "a", "b", none, none⟩] (by decide) (by decide) (by decide)

end PipelineValidation

namespace Frontend

/-- Claim C8: the client-side validatePipeline rejects the call with the
arrays error before any request is issued when either argument is not an
array, and otherwise posts the two lists unchanged to /pipelines/parse
and returns the response body. -/
theorem C8_validatePipeline_contract {ν ε ρ : Type} (post : String → ParsePayload ν ε → ρ) :
    (∀ nodes edges, nodes.isArray = false ∨ edges.isArray = false →
        validatePipeline post nodes edges =
          Except.error "Invalid pipeline data: nodes and edges must be arrays") ∧
      ∀ ns es, validatePipeline post (JsArg.array ns) (JsArg.array es) =
        Except.ok (post "/pipelines/parse" ⟨ns, es⟩) := by
  constructor
  · intro nodes edges h
    cases nodes <;> cases edges <;>
      first
        | rfl
        | (exfalso; simp [JsArg.isArray] at h)
  · intro ns es
    rfl

/-- Witness for C8 with a concrete transport function. -/
theorem C8_witness :
    validatePipeline (fun u (p : ParsePayload Nat Nat) => (u, p))
        JsArg.nonArray (JsArg.array [2]) =
        Except.error "Invalid pipeline data: nodes and edges must be arrays" ∧
      validatePipeline (fun u (p : ParsePayload Nat Nat) => (u, p))
        (JsArg.array [1]) (JsArg.array [2]) =
        Except.ok ("/pipelines/parse", ⟨[1], [2]⟩) :=
  ⟨(C8_validatePipeline_contract (fun u (p : ParsePayload Nat Nat) => (u, p))).1
      JsArg.nonArray (JsArg.array [2]) (Or.inl rfl),
    (C8_validatePipeline_contract (fun u (p : ParsePayload Nat Nat) => (u, p))).2 [1] [2]⟩

/-- Claim C9: removeNode removes exactly the node with the given id and
every edge incident to it, keeps every other node and edge unchanged,
and preserves the invariant that every edge endpoint refers to a node
present in the node set. -/
theorem C9_removeNode (s : StoreState) (nodeId : String)
    (hinv : ∀ e ∈ s.edges,
      (∃ n ∈ s.nodes, n.id = e.source) ∧ ∃ n ∈ s.nodes, n.id = e.target) :
    (∀ n ∈ (removeNode s nodeId).nodes, n.id ≠ nodeId) ∧
      (∀ e ∈ (removeNode s nodeId).edges, e.source ≠ nodeId ∧ e.target ≠ nodeId) ∧
      (∀ n, n ∈ (removeNode s nodeId).nodes ↔ n ∈ s.nodes ∧ n.id ≠ nodeId) ∧
      (∀ e, e ∈ (removeNode s nodeId).edges ↔
        e ∈ s.edges ∧ e.source ≠ nodeId ∧ e.target ≠ nodeId) ∧
      ∀ e ∈ (removeNode s nodeId).edges,
        (∃ n ∈ (removeNode s nodeId).nodes, n.id = e.source) ∧
          ∃ n ∈ (removeNode s nodeId).nodes, n.id = e.target := by
  have hn : ∀ n, n ∈ (removeNode s nodeId).nodes ↔ n ∈ s.nodes ∧ n.id ≠ nodeId := by
    intro n
    simp [removeNode, List.mem_filter, bne_iff_ne]
  have he : ∀ e, e ∈ (removeNode s nodeId).edges ↔
      e ∈ s.edges ∧ e.source ≠ nodeId ∧ e.target ≠ nodeId := by
    intro e
    simp [removeNode, List.mem_filter, bne_iff_ne, and_assoc]
  refine ⟨fun n hnn => ((hn n).mp hnn).2, fun e hee => ((he e).mp hee).2, hn, he, ?_⟩
  intro e hee
  obtain ⟨heold, hes, het⟩ := (he e).mp hee
  obtain ⟨⟨n1, hn1, hid1⟩, n2, hn2, hid2⟩ := hinv e heold
  exact ⟨⟨n1, (hn n1).mpr ⟨hn1, by rw [hid1]; exact hes⟩, hid1⟩,
    n2, (hn n2).mpr ⟨hn2, by rw [hid2]; exact het⟩, hid2⟩

/-- Witness for C9: removing node b from a two-node store with one edge
a→b. -/
theorem C9_witness :
    (∀ n ∈ (removeNode ⟨[⟨"a", "d1"⟩, ⟨"b", "d2"⟩],
        [⟨"e", "a", "b", none, none⟩], fun _ => 0⟩ "b").nodes, n.id ≠ "b") ∧
      (∀ e ∈ (removeNode ⟨[⟨"a", "d1"⟩, ⟨"b", "d2"⟩],
          [⟨"e", "a", "b", none, none⟩], fun _ => 0⟩ "b").edges,
        e.source ≠ "b" ∧ e.target ≠ "b") ∧
      (∀ n, n ∈ (removeNode ⟨[⟨"a", "d1"⟩, ⟨"b", "d2"⟩],
          [⟨"e", "a", "b", none, none⟩], fun _ => 0⟩ "b").nodes ↔
        n ∈ [⟨"a", "d1"⟩, ⟨"b", "d2"⟩] ∧ n.id ≠ "b") ∧
      (∀ e, e ∈ (removeNode ⟨[⟨"a", "d1"⟩, ⟨"b", "d2"⟩],
          [⟨"e", "a", "b", none, none⟩], fun _ => 0⟩ "b").edges ↔
        e ∈ [⟨"e", "a", "b", none, none⟩] ∧ e.source ≠ "b" ∧ e.target ≠ "b") ∧
      ∀ e ∈ (removeNode ⟨[⟨"a", "d1"⟩, ⟨"b", "d2"⟩],
          [⟨"e", "a", "b", none, none⟩], fun _ => 0⟩ "b").edges,
        (∃ n ∈ (removeNode ⟨[⟨"a", "d1"⟩, ⟨"b", "d2"⟩],
            [⟨"e", "a", "b", none, none⟩], fun _ => 0⟩ "b").nodes, n.id = e.source) ∧
          ∃ n ∈ (removeNode ⟨[⟨"a", "d1"⟩, ⟨"b", "d2"⟩],
              [⟨"e", "a", "b", none, none⟩], fun _ => 0⟩ "b").nodes, n.id = e.target :=
  C9_removeNode ⟨[⟨"a", "d1"⟩, ⟨"b", "d2"⟩], [⟨"e", "a", "b", none, none⟩], fun _ => 0⟩
    "b" (by decide)

/-- Claim C10: getNodeID returns the id `type-n` where n is the per-type
counter incremented by exactly one (so an unseen type starts at 1),
other counters are untouched, and any two calls for the same type in a
call sequence return distinct ids. -/
theorem C10_getNodeID_unique :
    (∀ s ty, (getNodeID s ty).1 = ty ++ "-" ++ Nat.repr (s.nodeIDs ty + 1) ∧
        (getNodeID s ty).2.nodeIDs ty = s.nodeIDs ty + 1 ∧
        ∀ ty2, ty2 ≠ ty → (getNodeID s ty).2.nodeIDs ty2 = s.nodeIDs ty2) ∧
      ∀ s tys i j, i < j → j < tys.length → tys[i]? = tys[j]? →
        (runIds s tys)[i]? ≠ (runIds s tys)[j]? := by
  constructor
  · intro s ty
    refine ⟨rfl, ?_, ?_⟩
    · simp [getNodeID]
    · intro ty2 h2
      simp [getNodeID, h2]
  · intro s tys i j hij hj heq
    exact runIds_distinct hij hj heq

/-- Witness for C10: two calls for the same type from a fresh store. -/
theorem C10_witness :
    (runIds ⟨[], [], fun _ => 0⟩ ["text", "text"])[0]? ≠
      (runIds ⟨[], [], fun _ => 0⟩ ["text", "text"])[1]? :=
  C10_getNodeID_unique.2 ⟨[], [], fun _ => 0⟩ ["text", "text"] 0 1
    (by decide) (by decide) (by decide)

end Frontend
